import Mathlib

/-!
Shallow embedding of the bidding-for-envy-freeness core of this repository:
the assignment solver (`find_best_matching`), the totals computation
(`find_m_c`), the assessment-matrix construction
(`initialize_assessment_matrix`), the iterative compensation procedure and
its converged artifacts (`assessment_matrix`, `bundle_discount_allocation`).

The implementation module `fairpy/items/bidding_for_envy_freeness.py` is not
present in the sources; only its test module
(`fairpy/items/test_bidding_for_envy_freeness.py`) is.  Every engine
definition below is therefore modelled from the specification and validated
against the literal oracle vectors asserted by that test module (the same
vectors appear in the specification).  Valuations are modelled as integers,
as in every oracle scenario of the tests and the specification; the single
rational division of the procedure (splitting the leftover surplus equally
among the n agents) is taken over ℚ.

Conventions reconstructed from the test oracles:
* `find_best_matching` returns, for every bundle index j, the AGENT assigned
  to bundle j (the test `[[25,25,25],[10,20,25],[50,40,35]] ↦ [2,0,1]` forces
  this orientation: read the other way the returned list would be a
  suboptimal matching of total value 75 < 100).
* the assessment matrix rows are indexed by bundles (equivalently by agents
  in assigned-bundle order); entry (i, j) is the bundle-i owner's bid for
  bundle j minus the bundle-j owner's bid for bundle j, as forced by the
  oracle rows `[[0,15,10],[-25,0,0],[-40,-5,0]]` for scenario 1.
* `find_m_c` returns (M, c1, c2) with M the optimal matching total, c1 the
  least row sum (the qualification cost of the reference procedure) and
  c2 = M - c1 the distributable surplus; this reproduces (100,55,45) and
  (145,100,45) on the oracle scenarios.
* the compensation procedure iterates the layer map
  delta ↦ (i ↦ max(0, max_j (A i j + delta j))) from the all-zero layer, and
  the final per-bundle discount adds the equal share of the remaining
  surplus, (c2 - Σ delta)/n; this reproduces the converged matrices
  `[[15,15,10],[-10,0,0],[-25,-5,0],[25,10,10]]` and the discounts
  {0: 25, 1: 10, 2: 10} / {0: 5, 1: 15, 2: 15, 3: 10} of the tests.
-/

namespace BFEF

/-! ### Generic list helpers -/

/-- Maximum of a list of integers, floored at 0. -/
def listMax0 (l : List ℤ) : ℤ := l.foldr max 0

theorem listMax0_nonneg (l : List ℤ) : 0 ≤ listMax0 l := by
  induction l with
  | nil => exact le_refl _
  | cons a t ih => exact le_trans ih (le_max_right a (listMax0 t))

theorem le_listMax0 {l : List ℤ} {x : ℤ} (h : x ∈ l) : x ≤ listMax0 l := by
  induction l with
  | nil => cases h
  | cons a t ih =>
    rcases List.mem_cons.mp h with h | h
    · subst h; exact le_max_left _ _
    · exact le_trans (ih h) (le_max_right _ _)

theorem listMax0_le {l : List ℤ} {c : ℤ} (h0 : 0 ≤ c) (h : ∀ x ∈ l, x ≤ c) :
    listMax0 l ≤ c := by
  induction l with
  | nil => exact h0
  | cons a t ih =>
    exact max_le (h a (List.mem_cons_self a t))
      (ih fun x hx => h x (List.mem_cons_of_mem a hx))

theorem listMax0_cons (a : ℤ) (t : List ℤ) :
    listMax0 (a :: t) = max a (listMax0 t) := rfl

theorem listMax0_cases (l : List ℤ) : listMax0 l = 0 ∨ listMax0 l ∈ l := by
  induction l with
  | nil => exact Or.inl rfl
  | cons a t ih =>
    rw [listMax0_cons]
    rcases le_total a (listMax0 t) with hle | hle
    · rw [max_eq_right hle]
      rcases ih with h0 | hm
      · exact Or.inl h0
      · exact Or.inr (List.mem_cons_of_mem a hm)
    · rw [max_eq_left hle]
      exact Or.inr (List.mem_cons_self a t)

/-! ### The assignment solver -/

/-- All permutations of `Fin n`, as a computable list. -/
def allPerms (n : ℕ) : List (Equiv.Perm (Fin n)) := permsOfList (List.finRange n)

theorem mem_allPerms {n : ℕ} (σ : Equiv.Perm (Fin n)) : σ ∈ allPerms n :=
  mem_permsOfList_of_mem fun x _ => List.mem_finRange x

/-- Total value of the matching that assigns bundle j to agent `σ j`. -/
def matchingValue {n : ℕ} (V : Fin n → Fin n → ℤ) (σ : Equiv.Perm (Fin n)) : ℤ :=
  ∑ j, V (σ j) j

/-- The assignment solver.  Returns the value-maximizing matching as the map
sending each bundle index to the agent assigned to it, chosen
deterministically (first maximizer in a fixed enumeration of all
permutations), as the oracle vectors of the tests force. -/
def find_best_matching {n : ℕ} (V : Fin n → Fin n → ℤ) : Equiv.Perm (Fin n) :=
  ((allPerms n).argmax (matchingValue V)).getD 1

theorem argmax_allPerms_eq_some {n : ℕ} (V : Fin n → Fin n → ℤ) :
    (allPerms n).argmax (matchingValue V) = some (find_best_matching V) := by
  rcases h : (allPerms n).argmax (matchingValue V) with _ | σ
  · exact absurd (List.argmax_eq_none.mp h ▸ mem_allPerms 1) (List.not_mem_nil _)
  · rw [find_best_matching, h]; rfl

/-- No matching beats the one returned by the solver. -/
theorem find_best_matching_maximal {n : ℕ} (V : Fin n → Fin n → ℤ)
    (σ : Equiv.Perm (Fin n)) :
    matchingValue V σ ≤ matchingValue V (find_best_matching V) :=
  List.le_of_mem_argmax (mem_allPerms σ) (by rw [argmax_allPerms_eq_some V]; rfl)

/-! ### The assessment / compensation engine -/

/-- The valuation matrix reordered so that row i is the row of the agent
assigned bundle i; the optimal matching becomes the identity. -/
def Wmat {n : ℕ} (V : Fin n → Fin n → ℤ) : Fin n → Fin n → ℤ :=
  fun i j => V (find_best_matching V i) j

/-- Envy differential of the bundle-i owner toward bundle j: its own bid for
bundle j minus the bid of bundle j's owner for bundle j. -/
def assessEntry {n : ℕ} (V : Fin n → Fin n → ℤ) (i j : Fin n) : ℤ :=
  Wmat V i j - Wmat V j j

/-- Phase-2 assessment matrix: one row per agent in assigned-bundle order,
plus a final all-zero row. -/
def initialize_assessment_matrix {n : ℕ} (V : Fin n → Fin n → ℤ) :
    Fin (n + 1) → Fin n → ℤ :=
  fun i j => if h : (i : ℕ) < n then assessEntry V ⟨i, h⟩ j else 0

/-- One layer of the compensation procedure: every bundle's compensation is
raised to cover the residual envy toward it, floored at 0. -/
def compStep {n : ℕ} (V : Fin n → Fin n → ℤ) (δ : Fin n → ℤ) : Fin n → ℤ :=
  fun i => listMax0 ((List.finRange n).map fun j => assessEntry V i j + δ j)

/-- Compensation after k layers, starting from the all-zero layer. -/
def compLayer {n : ℕ} (V : Fin n → Fin n → ℤ) (k : ℕ) : Fin n → ℤ :=
  (compStep V)^[k] (fun _ => 0)

/-- The compensation vector the engine uses: the procedure runs for at most
n+1 layers. -/
def engineDelta {n : ℕ} (V : Fin n → Fin n → ℤ) : Fin n → ℤ :=
  compLayer V (n + 1)

/-- Convergence of the compensation procedure: one more layer changes
nothing. -/
def converges {n : ℕ} (V : Fin n → Fin n → ℤ) : Prop :=
  ∀ i, compStep V (engineDelta V) i = engineDelta V i

instance {n : ℕ} (V : Fin n → Fin n → ℤ) : Decidable (converges V) := by
  unfold converges; infer_instance

/-- Total value M of the optimal matching. -/
def totalM {n : ℕ} (V : Fin n → Fin n → ℤ) : ℤ := ∑ j, Wmat V j j

/-- Row sums of the valuation matrix (each agent's total declared value). -/
def rowSums {n : ℕ} (V : Fin n → Fin n → ℤ) : List ℤ :=
  (List.finRange n).map fun i => ∑ j, V i j

/-- The scalar c1: the least row sum (the qualification cost of the
reference procedure). -/
def c1val {n : ℕ} (V : Fin n → Fin n → ℤ) : ℤ :=
  (((rowSums V).argmin id).getD 0)

/-- The scalar c2: the distributable surplus M - c1. -/
def c2val {n : ℕ} (V : Fin n → Fin n → ℤ) : ℤ := totalM V - c1val V

/-- Phase-1 totals (M, c1, c2). -/
def find_m_c {n : ℕ} (V : Fin n → Fin n → ℤ) : ℤ × ℤ × ℤ :=
  (totalM V, c1val V, c2val V)

/-- Equal share of the surplus left after the envy-eliminating
compensations. -/
def surplusShare {n : ℕ} (V : Fin n → Fin n → ℤ) : ℚ :=
  ((c2val V - ∑ j, engineDelta V j : ℤ) : ℚ) / (n : ℚ)

/-- Final per-bundle discount: converged compensation plus the equal
surplus share. -/
def discount {n : ℕ} (V : Fin n → Fin n → ℤ) (j : Fin n) : ℚ :=
  (engineDelta V j : ℚ) + surplusShare V

/-- The converged assessment matrix the engine exposes: the compensation
layer is folded into the first n rows and the final row holds the
per-bundle discounts. -/
def assessment_matrix {n : ℕ} (V : Fin n → Fin n → ℤ) :
    Fin (n + 1) → Fin n → ℚ :=
  fun i j =>
    if h : (i : ℕ) < n then ((assessEntry V ⟨i, h⟩ j + engineDelta V j : ℤ) : ℚ)
    else discount V j

/-- The allocation: each agent receives its bundle under the optimal
matching together with that bundle's discount. -/
def bundle_discount_allocation {n : ℕ} (V : Fin n → Fin n → ℤ) :
    Fin n → Fin n × ℚ :=
  fun a =>
    ((find_best_matching V)⁻¹ a, discount V ((find_best_matching V)⁻¹ a))

/-! ### Oracle scenario matrices of the test module -/

/-- Scenario 1 of the tests and the specification. -/
def V1 : Fin 3 → Fin 3 → ℤ := ![![50, 40, 35], ![25, 25, 25], ![10, 20, 25]]

/-- Row-permuted variant of scenario 1 (scenario 3 of the specification). -/
def V2 : Fin 3 → Fin 3 → ℤ := ![![25, 25, 25], ![50, 40, 35], ![10, 20, 25]]

/-- The three-cycle test vector for the solver. -/
def V3 : Fin 3 → Fin 3 → ℤ := ![![25, 25, 25], ![10, 20, 25], ![50, 40, 35]]

/-- Scenario 2 of the tests and the specification. -/
def V4 : Fin 4 → Fin 4 → ℤ :=
  ![![50, 20, 10, 20], ![60, 40, 15, 10], ![0, 40, 25, 35], ![50, 35, 10, 30]]

example : (∀ j : Fin 3, find_best_matching V1 j = j) := by decide

example : find_best_matching V3 0 = 2 ∧ find_best_matching V3 1 = 0 ∧
    find_best_matching V3 2 = 1 := by decide

example : find_m_c V1 = (100, 55, 45) := by decide

example : find_m_c V4 = (145, 100, 45) := by decide

example : (∀ j, engineDelta V1 j = ![15, 0, 0] j) := by decide

example : (∀ j, engineDelta V4 j = ![0, 10, 10, 5] j) := by decide

example : converges V1 := by decide

/-! ### Evaluation lemmas for the rational-valued artifacts -/

theorem assessment_matrix_of_lt {n : ℕ} (V : Fin n → Fin n → ℤ) (i : Fin (n + 1))
    (h : (i : ℕ) < n) (j : Fin n) :
    assessment_matrix V i j = ((assessEntry V ⟨i, h⟩ j + engineDelta V j : ℤ) : ℚ) :=
  dif_pos h

theorem assessment_matrix_last {n : ℕ} (V : Fin n → Fin n → ℤ) (j : Fin n) :
    assessment_matrix V (Fin.last n) j = discount V j :=
  dif_neg (lt_irrefl n)

theorem discount_eval {n : ℕ} (V : Fin n → Fin n → ℤ) (j : Fin n) (a s : ℤ)
    (hd : engineDelta V j = a) (hs : c2val V - ∑ k, engineDelta V k = s) :
    discount V j = (a : ℚ) + (s : ℚ) / (n : ℚ) := by
  rw [discount, surplusShare, hd, hs]

/-! Oracle validation: the modelled engine reproduces the assessment
matrices and discounts asserted by the repository's test module. -/

example : (∀ i j, initialize_assessment_matrix V1 i j =
    ![![0, 15, 10], ![-25, 0, 0], ![-40, -5, 0], ![0, 0, 0]] i j) := by decide

example : (∀ i j, initialize_assessment_matrix V4 i j =
    ![![0, -20, -15, -10], ![10, 0, -10, -20], ![-50, 0, 0, 5], ![0, -5, -15, 0],
      ![0, 0, 0, 0]] i j) := by decide

example : discount V1 0 = 25 := by
  rw [discount_eval V1 0 15 30 (by decide) (by decide)]; norm_num

example : discount V1 1 = 10 := by
  rw [discount_eval V1 1 0 30 (by decide) (by decide)]; norm_num

example : discount V4 0 = 5 := by
  rw [discount_eval V4 0 0 20 (by decide) (by decide)]; norm_num

example : discount V4 1 = 15 := by
  rw [discount_eval V4 1 10 20 (by decide) (by decide)]; norm_num

example : (bundle_discount_allocation V2 0).1 = 1 ∧
    (bundle_discount_allocation V2 1).1 = 0 ∧
    (bundle_discount_allocation V2 2).1 = 2 := by decide

example : (bundle_discount_allocation V2 0).2 = 10 := by
  show discount V2 _ = 10
  rw [discount_eval V2 _ 0 30 (by decide) (by decide)]; norm_num

/-! ### Walk calculus for the convergence of the compensation procedure

A layer of the compensation procedure is a Bellman step over the assessment
graph; the k-th layer is the best weight of a walk of length at most k.
Optimality of the matching makes every closed walk non-positive, so the
layers stabilize after at most n iterations. -/

/-- Weight of the walk that starts at i and then visits the listed
vertices in order. -/
def walkW {n : ℕ} (A : Fin n → Fin n → ℤ) : Fin n → List (Fin n) → ℤ
  | _, [] => 0
  | i, j :: rest => A i j + walkW A j rest

theorem walkW_nil {n : ℕ} (A : Fin n → Fin n → ℤ) (i : Fin n) :
    walkW A i [] = 0 := rfl

theorem walkW_cons {n : ℕ} (A : Fin n → Fin n → ℤ) (i j : Fin n)
    (rest : List (Fin n)) : walkW A i (j :: rest) = A i j + walkW A j rest := rfl

theorem walkW_append {n : ℕ} (A : Fin n → Fin n → ℤ) :
    ∀ (xs : List (Fin n)) (i a : Fin n) (ys : List (Fin n)),
      walkW A i (xs ++ a :: ys) = walkW A i (xs ++ [a]) + walkW A a ys := by
  intro xs
  induction xs with
  | nil =>
    intro i a ys
    simp [walkW_cons, walkW_nil]
  | cons x t ih =>
    intro i a ys
    simp only [List.cons_append, walkW_cons, ih x a ys]
    ring

/-- An abstract compensation layer step over an arbitrary envy matrix A. -/
def stepA {n : ℕ} (A : Fin n → Fin n → ℤ) (δ : Fin n → ℤ) : Fin n → ℤ :=
  fun i => listMax0 ((List.finRange n).map fun j => A i j + δ j)

theorem compStep_eq_stepA {n : ℕ} (V : Fin n → Fin n → ℤ) :
    compStep V = stepA (assessEntry V) := rfl

theorem le_stepA {n : ℕ} (A : Fin n → Fin n → ℤ) (δ : Fin n → ℤ) (i j : Fin n) :
    A i j + δ j ≤ stepA A δ i :=
  le_listMax0 (List.mem_map.mpr ⟨j, List.mem_finRange j, rfl⟩)

theorem stepA_nonneg {n : ℕ} (A : Fin n → Fin n → ℤ) (δ : Fin n → ℤ) (i : Fin n) :
    0 ≤ stepA A δ i := listMax0_nonneg _

theorem stepA_le {n : ℕ} (A : Fin n → Fin n → ℤ) (δ : Fin n → ℤ) (i : Fin n)
    {c : ℤ} (h0 : 0 ≤ c) (h : ∀ j, A i j + δ j ≤ c) : stepA A δ i ≤ c := by
  refine listMax0_le h0 ?_
  intro x hx
  rcases List.mem_map.mp hx with ⟨j, _, rfl⟩
  exact h j

theorem stepA_cases {n : ℕ} (A : Fin n → Fin n → ℤ) (δ : Fin n → ℤ) (i : Fin n) :
    stepA A δ i = 0 ∨ ∃ j, stepA A δ i = A i j + δ j := by
  rcases listMax0_cases ((List.finRange n).map fun j => A i j + δ j) with h | h
  · exact Or.inl h
  · rcases List.mem_map.mp h with ⟨j, _, hj⟩
    exact Or.inr ⟨j, hj.symm⟩

theorem stepA_mono {n : ℕ} (A : Fin n → Fin n → ℤ) {δ δ' : Fin n → ℤ}
    (h : ∀ i, δ i ≤ δ' i) (i : Fin n) : stepA A δ i ≤ stepA A δ' i :=
  stepA_le A δ i (stepA_nonneg A δ' i)
    (fun j => le_trans (add_le_add_left (h j) _) (le_stepA A δ' i j))

/-- The k-th compensation layer over an abstract envy matrix. -/
def layerA {n : ℕ} (A : Fin n → Fin n → ℤ) (k : ℕ) : Fin n → ℤ :=
  (stepA A)^[k] (fun _ => 0)

theorem compLayer_eq_layerA {n : ℕ} (V : Fin n → Fin n → ℤ) (k : ℕ) :
    compLayer V k = layerA (assessEntry V) k := rfl

theorem layerA_zero {n : ℕ} (A : Fin n → Fin n → ℤ) (i : Fin n) :
    layerA A 0 i = 0 := rfl

theorem layerA_succ {n : ℕ} (A : Fin n → Fin n → ℤ) (k : ℕ) :
    layerA A (k + 1) = stepA A (layerA A k) :=
  Function.iterate_succ_apply' (stepA A) k _

theorem layerA_nonneg {n : ℕ} (A : Fin n → Fin n → ℤ) (k : ℕ) (i : Fin n) :
    0 ≤ layerA A k i := by
  cases k with
  | zero => exact le_refl 0
  | succ m => rw [layerA_succ]; exact stepA_nonneg A _ i

theorem layerA_le_succ {n : ℕ} (A : Fin n → Fin n → ℤ) (k : ℕ) (i : Fin n) :
    layerA A k i ≤ layerA A (k + 1) i := by
  induction k generalizing i with
  | zero => rw [layerA_zero]; exact layerA_nonneg A 1 i
  | succ m ih =>
    rw [layerA_succ, layerA_succ]
    exact stepA_mono A ih i

theorem layerA_mono {n : ℕ} (A : Fin n → Fin n → ℤ) {k m : ℕ} (h : k ≤ m)
    (i : Fin n) : layerA A k i ≤ layerA A m i := by
  induction m with
  | zero => cases Nat.le_zero.mp h; exact le_refl _
  | succ m ih =>
    rcases Nat.le_succ_iff.mp h with h | h
    · exact le_trans (ih h) (layerA_le_succ A m i)
    · cases h; exact le_refl _

theorem walkW_le_layerA {n : ℕ} (A : Fin n → Fin n → ℤ) :
    ∀ (k : ℕ) (i : Fin n) (w : List (Fin n)), w.length ≤ k →
      walkW A i w ≤ layerA A k i := by
  intro k
  induction k with
  | zero =>
    intro i w hw
    rw [List.length_eq_zero.mp (Nat.le_zero.mp hw), walkW_nil, layerA_zero]
  | succ m ih =>
    intro i w hw
    cases w with
    | nil => rw [walkW_nil]; exact layerA_nonneg A (m + 1) i
    | cons j rest =>
      rw [walkW_cons, layerA_succ]
      refine le_trans (add_le_add_left ?_ (A i j)) (le_stepA A (layerA A m) i j)
      exact ih j rest (Nat.succ_le_succ_iff.mp hw)

theorem layerA_achieved {n : ℕ} (A : Fin n → Fin n → ℤ) :
    ∀ (k : ℕ) (i : Fin n), ∃ w : List (Fin n), w.length ≤ k ∧
      layerA A k i = walkW A i w := by
  intro k
  induction k with
  | zero => exact fun i => ⟨[], le_refl 0, rfl⟩
  | succ m ih =>
    intro i
    rw [layerA_succ]
    rcases stepA_cases A (layerA A m) i with h | ⟨j, hj⟩
    · exact ⟨[], Nat.zero_le _, by rw [h, walkW_nil]⟩
    · rcases ih j with ⟨w, hwlen, hwv⟩
      exact ⟨j :: w, Nat.succ_le_succ hwlen, by rw [hj, walkW_cons, hwv]⟩

/-- Any list that is not duplicate-free splits around a repeated element. -/
theorem exists_dup_split {n : ℕ} :
    ∀ l : List (Fin n), ¬l.Nodup →
      ∃ (l₁ : List (Fin n)) (a : Fin n) (l₂ l₃ : List (Fin n)),
        l = l₁ ++ a :: l₂ ++ a :: l₃ := by
  intro l
  induction l with
  | nil => intro h; exact absurd List.nodup_nil h
  | cons x t ih =>
    intro h
    by_cases hx : x ∈ t
    · rcases List.append_of_mem hx with ⟨s, u, rfl⟩
      exact ⟨[], x, s, u, rfl⟩
    · have ht : ¬t.Nodup := fun hnd => h (List.nodup_cons.mpr ⟨hx, hnd⟩)
      rcases ih ht with ⟨l₁, a, l₂, l₃, rfl⟩
      exact ⟨x :: l₁, a, l₂, l₃, rfl⟩

theorem closed_walk_nonpos {n : ℕ} (A : Fin n → Fin n → ℤ)
    (hsimple : ∀ (a : Fin n) (l : List (Fin n)), (a :: l).Nodup →
      walkW A a (l ++ [a]) ≤ 0) :
    ∀ (k : ℕ) (a : Fin n) (l : List (Fin n)), l.length ≤ k →
      walkW A a (l ++ [a]) ≤ 0 := by
  intro k
  induction k with
  | zero =>
    intro a l hl
    rw [List.length_eq_zero.mp (Nat.le_zero.mp hl)]
    exact hsimple a [] (List.nodup_cons.mpr ⟨List.not_mem_nil a, List.nodup_nil⟩)
  | succ m ih =>
    intro a l hl
    by_cases hnd : (a :: l).Nodup
    · exact hsimple a l hnd
    · rcases exists_dup_split (a :: l) hnd with ⟨l₁, b, l₂, l₃, hsp⟩
      cases l₁ with
      | nil =>
        simp only [List.append_eq, List.nil_append, List.cons_append,
          List.append_assoc, List.cons.injEq] at hsp
        rcases hsp with ⟨rfl, rfl⟩
        simp only [List.append_eq, List.length_append, List.length_cons] at hl
        have h2 := ih a l₂ (by omega)
        have h3 := ih a l₃ (by omega)
        rw [List.append_assoc, List.cons_append, walkW_append A l₂ a a]
        omega
      | cons x t =>
        simp only [List.append_eq, List.nil_append, List.cons_append,
          List.append_assoc, List.cons.injEq] at hsp
        rcases hsp with ⟨rfl, rfl⟩
        simp only [List.append_eq, List.length_append, List.length_cons] at hl
        have h3 := ih b l₂ (by omega)
        have h4 := ih a (t ++ b :: l₃)
          (by simp only [List.length_append, List.length_cons]; omega)
        rw [List.append_assoc, List.cons_append, walkW_append A t a b] at h4
        rw [List.append_assoc, List.cons_append, walkW_append A t a b,
          List.append_assoc, List.cons_append, walkW_append A l₂ b b]
        omega

theorem walk_shorten {n : ℕ} (A : Fin n → Fin n → ℤ)
    (hclosed : ∀ (a : Fin n) (l : List (Fin n)), walkW A a (l ++ [a]) ≤ 0) :
    ∀ (k : ℕ) (i : Fin n) (w : List (Fin n)), w.length ≤ k →
      ∃ w' : List (Fin n), w'.length < n ∧ walkW A i w ≤ walkW A i w' := by
  intro k
  induction k with
  | zero =>
    intro i w hw
    rw [List.length_eq_zero.mp (Nat.le_zero.mp hw)]
    exact ⟨[], i.pos, le_refl _⟩
  | succ m ih =>
    intro i w hw
    by_cases hsh : w.length < n
    · exact ⟨w, hsh, le_refl _⟩
    · have hcard : ¬(i :: w).Nodup := by
        intro hnd
        have := hnd.length_le_card
        simp only [List.length_cons, Fintype.card_fin] at this
        omega
      rcases exists_dup_split (i :: w) hcard with ⟨l₁, b, l₂, l₃, hsp⟩
      cases l₁ with
      | nil =>
        simp only [List.append_eq, List.nil_append, List.cons_append,
          List.append_assoc, List.cons.injEq] at hsp
        rcases hsp with ⟨rfl, rfl⟩
        simp only [List.append_eq, List.length_append, List.length_cons] at hw
        rcases ih i l₃ (by omega) with ⟨w', hw', hle⟩
        refine ⟨w', hw', ?_⟩
        have hcl := hclosed i l₂
        rw [walkW_append A l₂ i i]
        omega
      | cons x t =>
        simp only [List.append_eq, List.nil_append, List.cons_append,
          List.append_assoc, List.cons.injEq] at hsp
        rcases hsp with ⟨rfl, rfl⟩
        simp only [List.append_eq, List.length_append, List.length_cons] at hw
        rcases ih i (t ++ b :: l₃)
          (by simp only [List.length_append, List.length_cons]; omega)
          with ⟨w', hw', hle⟩
        refine ⟨w', hw', ?_⟩
        have hcl := hclosed b l₂
        rw [walkW_append A t i b] at hle
        rw [walkW_append A t i b, walkW_append A l₂ b b]
        omega

theorem layerA_le_stable {n : ℕ} (A : Fin n → Fin n → ℤ)
    (hclosed : ∀ (a : Fin n) (l : List (Fin n)), walkW A a (l ++ [a]) ≤ 0)
    (k : ℕ) (i : Fin n) : layerA A k i ≤ layerA A (n - 1) i := by
  rcases layerA_achieved A k i with ⟨w, hwlen, hwv⟩
  rcases walk_shorten A hclosed k i w hwlen with ⟨w', hw', hle⟩
  rw [hwv]
  refine le_trans hle (walkW_le_layerA A (n - 1) i w' ?_)
  omega

theorem layerA_stable {n : ℕ} (A : Fin n → Fin n → ℤ)
    (hclosed : ∀ (a : Fin n) (l : List (Fin n)), walkW A a (l ++ [a]) ≤ 0)
    {k : ℕ} (h : n - 1 ≤ k) (i : Fin n) : layerA A k i = layerA A (n - 1) i :=
  le_antisymm (layerA_le_stable A hclosed k i) (layerA_mono A h i)

/-! ### Cycles of the assessment graph are non-positive

The matrix W has the identity as a value-maximizing matching, so shifting
bundles along any cycle of agents cannot increase the total value; the
assessment weight of the cycle is exactly that difference of totals. -/

theorem zipWith_map_self {α β : Type} (f : α → α → β) (g : α → α)
    (m : List α) : List.zipWith f m (m.map g) = m.map fun x => f x (g x) := by
  induction m with
  | nil => rfl
  | cons x t ih => simp [ih]

theorem walkW_zip {n : ℕ} (A : Fin n → Fin n → ℤ) :
    ∀ (ys : List (Fin n)) (u v : Fin n),
      walkW A u (ys ++ [v]) = (List.zipWith A (u :: ys) (ys ++ [v])).sum := by
  intro ys
  induction ys with
  | nil => intro u v; simp [walkW_cons, walkW_nil]
  | cons y t ih =>
    intro u v
    simp only [List.cons_append, walkW_cons, ih y v, List.zipWith_cons_cons,
      List.sum_cons]

theorem sum_toFinset_map {n : ℕ} (l : List (Fin n)) (h : l.Nodup)
    (f : Fin n → ℤ) : ∑ x ∈ l.toFinset, f x = (l.map f).sum := by
  induction l with
  | nil => simp
  | cons a t ih =>
    rcases List.nodup_cons.mp h with ⟨ha, ht⟩
    rw [List.toFinset_cons, Finset.sum_insert (by simpa using ha), ih ht,
      List.map_cons, List.sum_cons]

theorem map_formPerm_eq_rotate {α : Type} [DecidableEq α] (m : List α)
    (h : m.Nodup) : m.map m.formPerm.toFun = m.rotate 1 := by
  apply List.ext_getElem
  · simp
  · intro i h1 h2
    simp only [List.getElem_map]
    have hi : i < m.length := by simpa using h1
    show m.formPerm m[i] = (m.rotate 1)[i]
    rw [List.formPerm_apply_getElem m h i hi, List.getElem_rotate m 1 i h2]

/-- Optimality of the matching, in reordered form: no permutation of the
bundles among the agents beats the identity on W. -/
theorem ident_opt {n : ℕ} (V : Fin n → Fin n → ℤ) (σ : Equiv.Perm (Fin n)) :
    ∑ i, Wmat V i (σ i) ≤ ∑ j, Wmat V j j := by
  have h1 : ∑ i, Wmat V i (σ i) =
      matchingValue V (find_best_matching V * σ⁻¹) := by
    rw [matchingValue,
      ← Equiv.sum_comp σ (fun j => V ((find_best_matching V * σ⁻¹) j) j)]
    refine Finset.sum_congr rfl fun i _ => ?_
    simp [Wmat, Equiv.Perm.mul_apply]
  rw [h1]
  exact find_best_matching_maximal V _

theorem assess_simple_cycle_nonpos {n : ℕ} (V : Fin n → Fin n → ℤ)
    (a : Fin n) (l : List (Fin n)) (h : (a :: l).Nodup) :
    walkW (assessEntry V) a (l ++ [a]) ≤ 0 := by
  set A := assessEntry V with hA
  set m := a :: l with hm
  set σ := m.formPerm with hσ
  have hrot : l ++ [a] = m.map σ.toFun := by
    rw [map_formPerm_eq_rotate m h, hm, List.rotate_cons_succ, List.rotate_zero]
  have hzip : walkW A a (l ++ [a]) = (m.map fun x => A x (σ x)).sum := by
    rw [walkW_zip A l a a, hrot, ← hm]
    rw [zipWith_map_self A σ.toFun m]
    rfl
  have hfin : (m.map fun x => A x (σ x)).sum = ∑ x ∈ m.toFinset, A x (σ x) :=
    (sum_toFinset_map m h _).symm
  have huniv : ∑ x ∈ m.toFinset, A x (σ x) = ∑ x, A x (σ x) := by
    refine Finset.sum_subset (Finset.subset_univ _) fun x _ hx => ?_
    have hnm : x ∉ m := fun hmem => hx (List.mem_toFinset.mpr hmem)
    rw [hσ, List.formPerm_apply_of_not_mem hnm, hA]
    exact sub_self _
  have hsplit : ∑ x, A x (σ x) =
      (∑ x, Wmat V x (σ x)) - ∑ x, Wmat V (σ x) (σ x) := by
    rw [← Finset.sum_sub_distrib]
    rfl
  have hre : ∑ x, Wmat V (σ x) (σ x) = ∑ j, Wmat V j j :=
    Equiv.sum_comp σ fun j => Wmat V j j
  rw [hzip, hfin, huniv, hsplit, hre]
  have := ident_opt V σ
  omega

theorem assess_closed_nonpos {n : ℕ} (V : Fin n → Fin n → ℤ)
    (a : Fin n) (l : List (Fin n)) :
    walkW (assessEntry V) a (l ++ [a]) ≤ 0 :=
  closed_walk_nonpos (assessEntry V) (assess_simple_cycle_nonpos V)
    l.length a l (le_refl _)

/-! ### Convergence of the compensation procedure -/

theorem compLayer_stable {n : ℕ} (V : Fin n → Fin n → ℤ) {k : ℕ}
    (h : n - 1 ≤ k) (i : Fin n) :
    compLayer V k i = compLayer V (n - 1) i := by
  rw [compLayer_eq_layerA, compLayer_eq_layerA]
  exact layerA_stable (assessEntry V) (assess_closed_nonpos V) h i

theorem compStep_compLayer_fix {n : ℕ} (V : Fin n → Fin n → ℤ) {k : ℕ}
    (h : n - 1 ≤ k) (i : Fin n) :
    compStep V (compLayer V k) i = compLayer V k i := by
  have hs : compStep V (compLayer V k) i = compLayer V (k + 1) i := by
    rw [compLayer_eq_layerA V (k + 1), layerA_succ, compLayer_eq_layerA,
      compStep_eq_stepA]
  rw [hs, compLayer_stable V (by omega) i, compLayer_stable V h i]

theorem converges_always {n : ℕ} (V : Fin n → Fin n → ℤ) : converges V :=
  fun i => compStep_compLayer_fix V (by omega) i

/-! ### Access lemmas for matrix rows below the terminal row -/

theorem initialize_assessment_matrix_of_lt {n : ℕ} (V : Fin n → Fin n → ℤ)
    (i : Fin (n + 1)) (h : (i : ℕ) < n) (j : Fin n) :
    initialize_assessment_matrix V i j = assessEntry V ⟨i, h⟩ j :=
  dif_pos h

theorem initialize_assessment_matrix_castSucc {n : ℕ} (V : Fin n → Fin n → ℤ)
    (i j : Fin n) :
    initialize_assessment_matrix V i.castSucc j = assessEntry V i j := by
  rw [initialize_assessment_matrix_of_lt V i.castSucc (by simp) j]
  exact congrArg (fun x => assessEntry V x j) (Fin.ext (by simp))

theorem initialize_assessment_matrix_last {n : ℕ} (V : Fin n → Fin n → ℤ)
    (j : Fin n) : initialize_assessment_matrix V (Fin.last n) j = 0 :=
  dif_neg (lt_irrefl n)

theorem assessment_matrix_castSucc {n : ℕ} (V : Fin n → Fin n → ℤ)
    (i j : Fin n) :
    assessment_matrix V i.castSucc j =
      ((assessEntry V i j + engineDelta V j : ℤ) : ℚ) := by
  rw [assessment_matrix_of_lt V i.castSucc (by simp) j]
  exact congrArg (fun x => ((assessEntry V x j + engineDelta V j : ℤ) : ℚ))
    (Fin.ext (by simp))

/-- The least value of a list of integers is invariant under permutation of
the list. -/
theorem argmin_getD_eq_of_perm (l l' : List ℤ) (hp : List.Perm l l') :
    (l.argmin id).getD 0 = (l'.argmin id).getD 0 := by
  cases hl : l.argmin id with
  | none =>
    have h0 : l = [] := List.argmin_eq_none.mp hl
    subst h0
    have h1 : l' = [] := hp.symm.eq_nil
    subst h1
    rfl
  | some m =>
    cases hl' : l'.argmin id with
    | none =>
      have h1 : l' = [] := List.argmin_eq_none.mp hl'
      subst h1
      have h0 : l = [] := hp.eq_nil
      subst h0
      cases hl
    | some m' =>
      have hm : m ∈ l := List.argmin_mem (show m ∈ l.argmin id by rw [hl]; rfl)
      have hm' : m' ∈ l' :=
        List.argmin_mem (show m' ∈ l'.argmin id by rw [hl']; rfl)
      have h1 : m ≤ m' :=
        List.le_of_mem_argmin (hp.mem_iff.mpr hm')
          (show m ∈ l.argmin id by rw [hl]; rfl)
      have h2 : m' ≤ m :=
        List.le_of_mem_argmin (hp.mem_iff.mp hm)
          (show m' ∈ l'.argmin id by rw [hl']; rfl)
      simp [le_antisymm h1 h2]

/-- The converged compensation vector dominates every residual envy term. -/
theorem engineDelta_dominates {n : ℕ} (V : Fin n → Fin n → ℤ)
    (hc : converges V) (i j : Fin n) :
    assessEntry V i j + engineDelta V j ≤ engineDelta V i := by
  have h1 := le_stepA (assessEntry V) (engineDelta V) i j
  have h2 := hc i
  rw [compStep_eq_stepA] at h2
  omega

/-! ### Claim C1 -/

/-- C1, counterexample: on scenario 1 the allocation the engine reports is
not envy-free in the sense stated by the claim, V[i][bundle_i] −
discount(bundle_i) ≥ V[i][bundle_j] − discount(bundle_j): agent 0 keeps
50 − 25 = 25 but values agent 1's outcome at 40 − 10 = 30. -/
theorem C1_counterexample :
    (V1 0 (bundle_discount_allocation V1 0).1 : ℚ) -
        (bundle_discount_allocation V1 0).2 <
      (V1 0 (bundle_discount_allocation V1 1).1 : ℚ) -
        (bundle_discount_allocation V1 1).2 := by
  have ha : (bundle_discount_allocation V1 0).1 = 0 := by decide
  have hb : (bundle_discount_allocation V1 1).1 = 1 := by decide
  have hda : (bundle_discount_allocation V1 0).2 = 25 := by
    show discount V1 _ = 25
    rw [discount_eval V1 _ 15 30 (by decide) (by decide)]; norm_num
  have hdb : (bundle_discount_allocation V1 1).2 = 10 := by
    show discount V1 _ = 10
    rw [discount_eval V1 _ 0 30 (by decide) (by decide)]; norm_num
  rw [ha, hb, hda, hdb, show V1 0 0 = 50 by decide, show V1 0 1 = 40 by decide]
  norm_num

/-- C1, amended: for every square valuation matrix on which the engine
converges, the converged allocation satisfies the assessment-based no-envy
guarantee the tests assert: for all agents a, b,
V[a][bundle_b] − V[b][bundle_b] + discount(bundle_b) ≤ discount(bundle_a)
(the differential is taken against the bid of bundle_b's owner, not against
agent a's own assigned value). -/
theorem C1_no_envy_amended {n : ℕ} (V : Fin n → Fin n → ℤ)
    (hc : converges V) (a b : Fin n) :
    (V a (bundle_discount_allocation V b).1 : ℚ) -
        (V b (bundle_discount_allocation V b).1 : ℚ) +
        (bundle_discount_allocation V b).2 ≤
      (bundle_discount_allocation V a).2 := by
  show (V a ((find_best_matching V)⁻¹ b) : ℚ) -
      (V b ((find_best_matching V)⁻¹ b) : ℚ) +
      discount V ((find_best_matching V)⁻¹ b) ≤
      discount V ((find_best_matching V)⁻¹ a)
  have hz := engineDelta_dominates V hc ((find_best_matching V)⁻¹ a)
    ((find_best_matching V)⁻¹ b)
  have hq : ((assessEntry V ((find_best_matching V)⁻¹ a)
      ((find_best_matching V)⁻¹ b) + engineDelta V ((find_best_matching V)⁻¹ b)
        : ℤ) : ℚ) ≤
      ((engineDelta V ((find_best_matching V)⁻¹ a) : ℤ) : ℚ) :=
    Int.cast_le.mpr hz
  simp only [assessEntry, Wmat, Equiv.Perm.apply_inv_self] at hq
  rw [discount, discount]
  push_cast at hq ⊢
  linarith

/-- C1, witness for the amended theorem at scenario 1 with agents 1 and 0. -/
theorem C1_witness :
    converges V1 ∧
      ((V1 1 (bundle_discount_allocation V1 0).1 : ℚ) -
          (V1 0 (bundle_discount_allocation V1 0).1 : ℚ) +
          (bundle_discount_allocation V1 0).2 ≤
        (bundle_discount_allocation V1 1).2) :=
  ⟨by decide, C1_no_envy_amended V1 (by decide) 1 0⟩

/-! ### Claim C2 -/

/-- C2, counterexample: on the three-cycle test vector the sequence returned
by find_best_matching, read as the claim reads it (position i holds the
bundle of agent i, maximizing Σ_i V[i][perm[i]]), is beaten by another
bijection: the code's oracle [2,0,1] scores 25+10+40 = 75 under the claim's
objective while the true agent-indexed optimum is 100.  The returned
sequence is the bundle-to-agent (inverse) orientation. -/
theorem C2_counterexample :
    ¬ (∀ q : Equiv.Perm (Fin 3),
      ∑ i, V3 i (q i) ≤ ∑ i, V3 i (find_best_matching V3 i)) := by
  decide

/-- C2, amended: find_best_matching returns a bijection on {0..n−1} and no
bijection achieves a strictly larger total when position j is read as the
agent assigned to bundle j: Σ_j V[perm[j]][j] is maximal. -/
theorem C2_best_matching_amended {n : ℕ} (V : Fin n → Fin n → ℤ)
    (q : Equiv.Perm (Fin n)) :
    Function.Bijective (find_best_matching V) ∧
      ∑ j, V (q j) j ≤ ∑ j, V (find_best_matching V j) j :=
  ⟨(find_best_matching V).bijective, find_best_matching_maximal V q⟩

/-! ### Claim C3 -/

/-- C3: find_m_c returns (M, c1, c2) with M = c1 + c2 and M equal to the
total value Σ_i V[i][π*(i)] of the matching returned by find_best_matching
(π* being the agent-to-bundle reading of that matching). -/
theorem C3_find_m_c {n : ℕ} (V : Fin n → Fin n → ℤ) :
    (find_m_c V).1 = (find_m_c V).2.1 + (find_m_c V).2.2 ∧
      (find_m_c V).1 = ∑ i, V i ((find_best_matching V)⁻¹ i) := by
  constructor
  · show totalM V = c1val V + (totalM V - c1val V)
    ring
  · show totalM V = ∑ i, V i ((find_best_matching V)⁻¹ i)
    rw [totalM,
      ← Equiv.sum_comp (find_best_matching V)
        (fun i => V i ((find_best_matching V)⁻¹ i))]
    refine Finset.sum_congr rfl fun j _ => ?_
    rw [Wmat, Equiv.Perm.inv_apply_self]

/-! ### Claim C4 -/

/-- C4: for every square valuation matrix the compensation procedure reaches
its converged terminal state within at most n+1 layers: the n-th layer is
already a fixed point of the layer map, and the engine state after n+1
layers is converged; in particular the procedure terminates on all such
inputs. -/
theorem C4_converges_within {n : ℕ} (V : Fin n → Fin n → ℤ) :
    (∀ i, compStep V (compLayer V n) i = compLayer V n i) ∧ converges V :=
  ⟨fun i => compStep_compLayer_fix V (by omega) i, converges_always V⟩

/-! ### Claim C5 -/

/-- C5, counterexample: the last row of the converged assessment matrix the
engine exposes is not all zeros: on scenario 1 its entry at column 0 is the
discount 25. -/
theorem C5_counterexample : assessment_matrix V1 (Fin.last 3) 0 ≠ 0 := by
  rw [assessment_matrix_last, discount_eval V1 0 15 30 (by decide) (by decide)]
  norm_num

/-- C5, amended: the final row is all zeros in the initial assessment
matrix, for every valid input; in the converged assessment matrix the final
row instead holds the per-bundle discounts. -/
theorem C5_last_row_amended {n : ℕ} (V : Fin n → Fin n → ℤ) :
    (∀ j, initialize_assessment_matrix V (Fin.last n) j = 0) ∧
      (∀ j, assessment_matrix V (Fin.last n) j = discount V j) :=
  ⟨fun j => initialize_assessment_matrix_last V j,
    fun j => assessment_matrix_last V j⟩

/-! ### Claim C6 -/

/-- C6, counterexample: row 0 of the initial assessment matrix for
scenario 1 is [0, 15, 10]; no agent a makes that row equal to
(value of a's own assigned bundle) − (a's value of each bundle), whichever
agent the claim's value-sorted ordering would place first; the differential
the tests pin down subtracts the bundle owner's bid instead. -/
theorem C6_counterexample :
    ¬ ∃ a : Fin 3, ∀ j : Fin 3,
      initialize_assessment_matrix V1 0 j =
        V1 a ((find_best_matching V1)⁻¹ a) - V1 a j := by
  decide

/-- C6, amended: the rows of the (n+1)×n initial assessment matrix are
indexed by bundles (agents taken in assigned-bundle order); entry (i, j)
is the bundle-i owner's bid for bundle j minus the bundle-j owner's bid for
bundle j, and the appended final row is all zeros. -/
theorem C6_initialize_amended {n : ℕ} (V : Fin n → Fin n → ℤ) (i j : Fin n) :
    initialize_assessment_matrix V i.castSucc j =
        V (find_best_matching V i) j - V (find_best_matching V j) j ∧
      initialize_assessment_matrix V (Fin.last n) j = 0 :=
  ⟨initialize_assessment_matrix_castSucc V i j,
    initialize_assessment_matrix_last V j⟩

/-! ### Claim C7 -/

/-- The all-ties matrix, on which every deterministic tie-break violates
permutation equivariance. -/
def V0 : Fin 2 → Fin 2 → ℤ := fun _ _ => 0

/-- C7, counterexample: row-permuting the all-zero 2×2 matrix by the swap
leaves the input unchanged, so the deterministic solver returns the same
assignment, while a correspondingly permuted assignment would have to
differ from it. -/
theorem C7_counterexample :
    ¬ (∀ j, find_best_matching (fun i k => V0 (Equiv.swap 0 1 i) k) j =
        ((Equiv.swap (0 : Fin 2) 1)⁻¹ * find_best_matching V0) j) := by
  decide

/-- C7, amended: when the value-maximizing matching of V is unique,
row-permuting the input by σ yields the correspondingly permuted
assignment and agent-to-discount mapping, and every per-bundle discount is
unchanged. -/
theorem C7_equivariance_amended {n : ℕ} (V : Fin n → Fin n → ℤ)
    (σ : Equiv.Perm (Fin n))
    (huniq : ∀ τ : Equiv.Perm (Fin n),
      matchingValue V τ = matchingValue V (find_best_matching V) →
        ∀ j, τ j = find_best_matching V j) :
    (∀ j, find_best_matching (fun i k => V (σ i) k) j =
        (σ⁻¹ * find_best_matching V) j) ∧
      (∀ j, discount (fun i k => V (σ i) k) j = discount V j) ∧
      (∀ a, bundle_discount_allocation (fun i k => V (σ i) k) a =
          bundle_discount_allocation V (σ a)) := by
  set V' : Fin n → Fin n → ℤ := fun i k => V (σ i) k with hV'
  set p := find_best_matching V with hpdef
  set q := find_best_matching V' with hqdef
  have hval : ∀ τ : Equiv.Perm (Fin n),
      matchingValue V' τ = matchingValue V (σ * τ) := fun τ => rfl
  have h1 : matchingValue V (σ * q) ≤ matchingValue V p :=
    find_best_matching_maximal V _
  have h2 : matchingValue V p ≤ matchingValue V (σ * q) := by
    have ha : matchingValue V' (σ⁻¹ * p) = matchingValue V p := by
      rw [hval (σ⁻¹ * p), mul_inv_cancel_left]
    calc matchingValue V p = matchingValue V' (σ⁻¹ * p) := ha.symm
      _ ≤ matchingValue V' q := find_best_matching_maximal V' _
      _ = matchingValue V (σ * q) := hval q
  have heq : ∀ j, (σ * q) j = p j := huniq (σ * q) (le_antisymm h1 h2)
  have hqe : q = σ⁻¹ * p := by
    ext j
    have hj := heq j
    simp only [Equiv.Perm.mul_apply] at hj ⊢
    rw [← hj, Equiv.Perm.inv_apply_self]
  have hW : Wmat V' = Wmat V := by
    funext i j
    show V (σ (q i)) j = V (p i) j
    rw [hqe]
    simp only [Equiv.Perm.mul_apply]
    rw [Equiv.Perm.apply_inv_self]
  have hA : assessEntry V' = assessEntry V := by
    funext i j
    show Wmat V' i j - Wmat V' j j = Wmat V i j - Wmat V j j
    rw [hW]
  have hstep : compStep V' = compStep V := by
    rw [compStep_eq_stepA, compStep_eq_stepA, hA]
  have hdelta : engineDelta V' = engineDelta V := by
    show (compStep V')^[n + 1] (fun _ => 0) = (compStep V)^[n + 1] (fun _ => 0)
    rw [hstep]
  have hM : totalM V' = totalM V := by
    show (∑ j, Wmat V' j j) = ∑ j, Wmat V j j
    rw [hW]
  have hrs : List.Perm (rowSums V') (rowSums V) := by
    have he : rowSums V' =
        List.map (fun i => ∑ j, V i j) (List.map (⇑σ) (List.finRange n)) := by
      rw [List.map_map]
      rfl
    rw [he]
    exact (σ.map_finRange_perm).map fun i => ∑ j, V i j
  have hc1 : c1val V' = c1val V := argmin_getD_eq_of_perm _ _ hrs
  have hdisc : ∀ j, discount V' j = discount V j := by
    intro j
    rw [discount, discount, surplusShare, surplusShare, hdelta, c2val, c2val,
      hM, hc1]
  refine ⟨?_, hdisc, ?_⟩
  · intro j
    show q j = (σ⁻¹ * p) j
    rw [hqe]
  · intro a
    show (q⁻¹ a, discount V' (q⁻¹ a)) = (p⁻¹ (σ a), discount V (p⁻¹ (σ a)))
    have hinv : q⁻¹ a = p⁻¹ (σ a) := by
      rw [hqe]
      simp [mul_inv_rev, Equiv.Perm.mul_apply]
    rw [hinv, hdisc]

/-- C7, witness for the amended equivariance at scenario 1 and the swap of
agents 0 and 1, whose optimal matching is unique. -/
theorem C7_witness :
    (∀ τ : Equiv.Perm (Fin 3),
      matchingValue V1 τ = matchingValue V1 (find_best_matching V1) →
        ∀ j, τ j = find_best_matching V1 j) ∧
      ((∀ j, find_best_matching (fun i k => V1 (Equiv.swap 0 1 i) k) j =
          ((Equiv.swap (0 : Fin 3) 1)⁻¹ * find_best_matching V1) j) ∧
        (∀ j, discount (fun i k => V1 (Equiv.swap 0 1 i) k) j =
            discount V1 j) ∧
        (∀ a, bundle_discount_allocation (fun i k => V1 (Equiv.swap 0 1 i) k) a
            = bundle_discount_allocation V1 (Equiv.swap 0 1 a))) :=
  ⟨by decide, C7_equivariance_amended V1 (Equiv.swap 0 1) (by decide)⟩

/-! ### Claim C8 -/

/-- Modelled from the spec: the repository's solver entry point validates
its input and raises a ValueError on empty or non-square input (spec
sections 4.2 and 7).  The implementation module is absent from the sources,
so the validating boundary is modelled with an explicit error value; on
well-formed input it returns the assignment sequence. -/
def find_best_matching_checked (rows : List (List ℤ)) : Except String (List ℕ) :=
  if rows.isEmpty then Except.error "ValueError: empty matrix"
  else if rows.any fun r => r.length != rows.length then
    Except.error "ValueError: non-square matrix"
  else
    Except.ok ((List.finRange rows.length).map fun j =>
      ((find_best_matching fun i k : Fin rows.length =>
        (rows.getD (i : ℕ) []).getD (k : ℕ) 0) j : ℕ))

/-- C8: for every input that is empty or non-square, the solver entry point
fails with a ValueError at validation, returning an error value and no
partial assignment. -/
theorem C8_value_error (rows : List (List ℤ))
    (h : rows = [] ∨ ∃ r ∈ rows, r.length ≠ rows.length) :
    ∃ msg, find_best_matching_checked rows = Except.error msg := by
  rcases h with rfl | ⟨r, hr, hne⟩
  · exact ⟨"ValueError: empty matrix", rfl⟩
  · refine ⟨"ValueError: non-square matrix", ?_⟩
    have hany : (rows.any fun s => s.length != rows.length) = true :=
      List.any_eq_true.mpr ⟨r, hr, by simpa using hne⟩
    have hemp : rows.isEmpty = false := by
      cases rows
      · cases hr
      · rfl
    simp [find_best_matching_checked, hemp, hany]

/-- C8, witness: a 1×2 matrix is rejected with a ValueError. -/
theorem C8_witness :
    (([[(1 : ℤ), 2]] : List (List ℤ)) = [] ∨
      ∃ r ∈ ([[(1 : ℤ), 2]] : List (List ℤ)),
        r.length ≠ ([[(1 : ℤ), 2]] : List (List ℤ)).length) ∧
      ∃ msg, find_best_matching_checked [[(1 : ℤ), 2]] = Except.error msg :=
  ⟨by decide, C8_value_error [[(1 : ℤ), 2]] (by decide)⟩

/-! ### Claim C9 -/

/-- C9: for every matrix on which the engine converges, entry (n, j) of the
converged assessment matrix equals the discount that
bundle_discount_allocation reports for the agent assigned bundle j, whose
reported bundle is indeed j. -/
theorem C9_last_row_discounts {n : ℕ} (V : Fin n → Fin n → ℤ)
    (_hc : converges V) (j : Fin n) :
    assessment_matrix V (Fin.last n) j =
        (bundle_discount_allocation V (find_best_matching V j)).2 ∧
      (bundle_discount_allocation V (find_best_matching V j)).1 = j := by
  constructor
  · rw [assessment_matrix_last]
    show discount V j =
      discount V ((find_best_matching V)⁻¹ (find_best_matching V j))
    rw [Equiv.Perm.inv_apply_self]
  · show (find_best_matching V)⁻¹ (find_best_matching V j) = j
    exact Equiv.Perm.inv_apply_self _ _

/-- C9, witness at scenario 1 and bundle 0. -/
theorem C9_witness :
    converges V1 ∧
      (assessment_matrix V1 (Fin.last 3) 0 =
          (bundle_discount_allocation V1 (find_best_matching V1 0)).2 ∧
        (bundle_discount_allocation V1 (find_best_matching V1 0)).1 = 0) :=
  ⟨by decide, C9_last_row_discounts V1 (by decide) 0⟩

/-! ### Claim C10 -/

/-- C10: on every matrix on which the engine converges, each of the first n
rows of the converged assessment matrix attains its maximum on the
diagonal. -/
theorem C10_diagonal_max {n : ℕ} (V : Fin n → Fin n → ℤ)
    (hc : converges V) (i j : Fin n) :
    assessment_matrix V i.castSucc j ≤ assessment_matrix V i.castSucc i := by
  rw [assessment_matrix_castSucc, assessment_matrix_castSucc]
  have h1 := engineDelta_dominates V hc i j
  have h0 : assessEntry V i i = 0 := sub_self _
  exact Int.cast_le.mpr (by omega)

/-- C10, witness at scenario 1, row 0 and column 1. -/
theorem C10_witness :
    converges V1 ∧
      assessment_matrix V1 (0 : Fin 3).castSucc 1 ≤
        assessment_matrix V1 (0 : Fin 3).castSucc 0 :=
  ⟨by decide, C10_diagonal_max V1 (by decide) 0 1⟩

end BFEF
